import Mathlib

/-!
# Verification of the XML tag indexing and caching engine

A shallow embedding of the structural tag indexing core of the
`xml-index` extension (`src/extension.js`): the tokenizer loop of
`scanRegularDocument`, the chunked regex scanner (`processChunkRegex`,
`scanLargeDocument`), the sibling grouper (`processAndCacheResults`),
the version gate (`shouldReindex` / `scanDocumentForTags`), the memory
bound (`cleanupMemory`), the display-mode toggles and the query helpers
(`getIndexedDataForDocument`, `getEntryAtCursor`).

JavaScript `Map` objects are modelled by association lists with JS
semantics (`set` of an existing key updates the value in place, keeping
its position in iteration order; `set` of a new key appends).  Document
text is modelled as `List Char`; machine numbers are `Nat`.
Falsiness of JS values (`x || y`, `!x`) is modelled explicitly where the
source relies on it (`entry.parent || "ROOT"`, `!lastVersion`).
-/

set_option autoImplicit false

namespace XmlIndex

/-! ## A model of the JavaScript `Map` (insertion-ordered association list) -/

/-- A JavaScript `Map`: a list of key/value pairs in insertion order.
`set` of an existing key updates it in place; `set` of a fresh key
appends at the end; `delete` removes the pair.  Keys of maps built from
`empty` by these operations are pairwise distinct. -/
def JSMap (α β : Type) : Type := List (α × β)

namespace JSMap

variable {α β : Type} [DecidableEq α]

instance [DecidableEq β] : DecidableEq (JSMap α β) :=
  inferInstanceAs (DecidableEq (List (α × β)))

def empty : JSMap α β := []

/-- `Map.prototype.get`, `undefined` modelled as `none`. -/
def get : JSMap α β → α → Option β
  | [], _ => none
  | (k, v) :: rest, a => if k = a then some v else get rest a

/-- `Map.prototype.set`: update in place if present, append otherwise. -/
def set : JSMap α β → α → β → JSMap α β
  | [], a, b => [(a, b)]
  | (k, v) :: rest, a, b => if k = a then (k, b) :: rest else (k, v) :: set rest a b

/-- `Map.prototype.delete`. -/
def delete (m : JSMap α β) (a : α) : JSMap α β :=
  m.filter (fun kv => ¬ kv.1 = a)

/-- `Map.prototype.size`. -/
def size (m : JSMap α β) : Nat := m.length

/-- `Array.from(m.entries())`: the pairs in insertion order. -/
def entries (m : JSMap α β) : List (α × β) := m

def keys (m : JSMap α β) : List α := m.map Prod.fst

@[simp] theorem get_empty (a : α) : (empty : JSMap α β).get a = none := rfl

@[simp] theorem get_set_self (m : JSMap α β) (a : α) (b : β) :
    (m.set a b).get a = some b := by
  induction m with
  | nil => simp [set, get]
  | cons kv rest ih =>
    obtain ⟨k, v⟩ := kv
    by_cases h : k = a <;> simp [set, get, h, ih]

@[simp] theorem get_set_ne (m : JSMap α β) (a a' : α) (b : β) (h : ¬ a = a') :
    (m.set a b).get a' = m.get a' := by
  induction m with
  | nil => simp [set, get, h]
  | cons kv rest ih =>
    obtain ⟨k, v⟩ := kv
    by_cases hk : k = a
    · subst hk
      simp [set, get, h]
    · have ha : ¬ a' = a := fun hc => h hc.symm
      by_cases hk' : k = a' <;> simp [set, get, hk, hk', ha, ih]

end JSMap

/-! ## Data model

`RawEntry` is the record pushed by the tokenizing passes
(`scanRegularDocument` / `processChunkRegex`):
`{ tag, offset, line, parent, id }`.  `parent` is a tag id or `null`. -/

structure RawEntry where
  tag : String
  offset : Nat
  line : Nat
  parent : Option Nat
  id : Nat
  deriving DecidableEq, Repr

/-- The record produced by `processAndCacheResults` for each raw entry:
the raw fields (spread) plus
`{ globalSequence, orderInTag, siblingCount, needsIndexing, parentKey }`. -/
structure ProcessedEntry where
  tag : String
  offset : Nat
  line : Nat
  parent : Option Nat
  id : Nat
  globalSequence : Nat
  orderInTag : Nat
  siblingCount : Nat
  needsIndexing : Bool
  parentKey : String
  deriving DecidableEq, Repr

/-! ## Decimal rendering of numbers

The sibling key is the template string `` `${parentKey}:${entry.tag}` ``;
a numeric `parentKey` is rendered in decimal.  We render through
`Nat.digits 10` so that injectivity follows from `Nat.ofDigits_digits`. -/

/-- Decimal string of a JS number (a natural in this model). -/
def natToString (n : Nat) : String :=
  if n = 0 then "0" else String.mk (((Nat.digits 10 n).reverse).map Nat.digitChar)

/-- `entry.parent || "ROOT"` rendered into the template string: `null`
(and the falsy `0`, which no scan produces) becomes `"ROOT"`, any other
number its decimal representation. -/
def parentKeyStr : Option Nat → String
  | none => "ROOT"
  | some 0 => "ROOT"
  | some n => natToString n

/-- The grouping key `` `${parentKey}:${entry.tag}` `` of
`processAndCacheResults`. -/
def siblingKey (e : RawEntry) : String :=
  parentKeyStr e.parent ++ ":" ++ e.tag

/-- The same key recomputed from a processed entry's copied fields. -/
def procKey (e : ProcessedEntry) : String :=
  parentKeyStr e.parent ++ ":" ++ e.tag

/-! ## Sibling grouper (`processAndCacheResults`, data part)

First pass: `siblingCounts` counts the occurrences of each sibling key.
(The `parentChildMap` built alongside it in the source is never read
afterwards, so it has no observable effect and is not modelled.)
Second pass: a running `tagOrderTrackers` map assigns `orderInTag`. -/

/-- First pass: `siblingCounts.set(k, (siblingCounts.get(k) || 0) + 1)`. -/
def buildCounts (data : List RawEntry) : JSMap String Nat :=
  data.foldl (fun m e => m.set (siblingKey e) ((m.get (siblingKey e)).getD 0 + 1))
    JSMap.empty

/-- Second pass of `processAndCacheResults`: `counts` is the finished
`siblingCounts` map, `tr` the running `tagOrderTrackers` map, `i` the
index of the current entry in `data.forEach`. -/
def annotate (counts : JSMap String Nat) :
    JSMap String Nat → Nat → List RawEntry → List ProcessedEntry
  | _, _, [] => []
  | tr, i, e :: rest =>
    let key := siblingKey e
    let ord := (tr.get key).getD 0 + 1
    let cnt := (counts.get key).getD 0
    { tag := e.tag, offset := e.offset, line := e.line, parent := e.parent,
      id := e.id, globalSequence := i + 1, orderInTag := ord,
      siblingCount := cnt, needsIndexing := decide (1 < cnt),
      parentKey := parentKeyStr e.parent } :: annotate counts (tr.set key ord) (i + 1) rest

/-- The data transformation of `processAndCacheResults` (lines 186-230):
group by `` `${parentKey}:${tag}` ``, count siblings, assign the 1-based
order within each group, and flag entries whose group has more than one
member. -/
def processData (data : List RawEntry) : List ProcessedEntry :=
  annotate (buildCounts data) JSMap.empty 0 data

/-! ### The first pass counts occurrences of each sibling key -/

theorem buildCounts_go_get (data : List RawEntry) :
    ∀ (m : JSMap String Nat) (k : String),
      ((data.foldl
          (fun m e => m.set (siblingKey e) ((m.get (siblingKey e)).getD 0 + 1))
          m).get k).getD 0
        = (m.get k).getD 0 + data.countP (fun e => siblingKey e = k) := by
  induction data with
  | nil => intro m k; simp
  | cons e rest ih =>
    intro m k
    rw [List.foldl_cons, ih, List.countP_cons]
    by_cases h : siblingKey e = k
    · simp [h, Nat.add_comm, Nat.add_assoc, Nat.add_left_comm]
    · simp [h]

theorem buildCounts_get (data : List RawEntry) (k : String) :
    ((buildCounts data).get k).getD 0 = data.countP (fun e => siblingKey e = k) := by
  rw [buildCounts, buildCounts_go_get]
  simp [JSMap.get_empty]

/-! ### The second pass enumerates each group in document order -/

theorem procKey_annotate_head (counts tr : JSMap String Nat) (i : Nat)
    (e : RawEntry) (rest : List RawEntry) :
    annotate counts tr i (e :: rest)
      = { tag := e.tag, offset := e.offset, line := e.line, parent := e.parent,
          id := e.id, globalSequence := i + 1,
          orderInTag := (tr.get (siblingKey e)).getD 0 + 1,
          siblingCount := (counts.get (siblingKey e)).getD 0,
          needsIndexing := decide (1 < (counts.get (siblingKey e)).getD 0),
          parentKey := parentKeyStr e.parent }
        :: annotate counts (tr.set (siblingKey e) ((tr.get (siblingKey e)).getD 0 + 1))
            (i + 1) rest := rfl

/-- Within one sibling group, the assigned `orderInTag` values, taken in
document order, are consecutive starting one past the tracker's current
value. -/
theorem annotate_group_orders (counts : JSMap String Nat) (k : String)
    (data : List RawEntry) :
    ∀ (tr : JSMap String Nat) (i : Nat),
      ((annotate counts tr i data).filter (fun e => procKey e = k)).map
          (fun e => e.orderInTag)
        = List.range' ((tr.get k).getD 0 + 1)
            (data.countP (fun e => siblingKey e = k)) := by
  induction data with
  | nil => intro tr i; simp [annotate]
  | cons e rest ih =>
    intro tr i
    rw [procKey_annotate_head, List.countP_cons]
    by_cases h : siblingKey e = k
    · have hp : procKey
          { tag := e.tag, offset := e.offset, line := e.line, parent := e.parent,
            id := e.id, globalSequence := i + 1,
            orderInTag := (tr.get (siblingKey e)).getD 0 + 1,
            siblingCount := (counts.get (siblingKey e)).getD 0,
            needsIndexing := decide (1 < (counts.get (siblingKey e)).getD 0),
            parentKey := parentKeyStr e.parent } = k := h
      rw [List.filter_cons_of_pos (by simp [hp]), List.map_cons, ih]
      simp [h, List.range'_succ]
    · have hp : ¬ procKey
          { tag := e.tag, offset := e.offset, line := e.line, parent := e.parent,
            id := e.id, globalSequence := i + 1,
            orderInTag := (tr.get (siblingKey e)).getD 0 + 1,
            siblingCount := (counts.get (siblingKey e)).getD 0,
            needsIndexing := decide (1 < (counts.get (siblingKey e)).getD 0),
            parentKey := parentKeyStr e.parent } = k := h
      rw [List.filter_cons_of_neg (by simp [hp]), ih]
      rw [JSMap.get_set_ne _ _ _ _ h]
      simp [h]

/-- Every processed entry copies its raw fields and carries the total
count of its sibling key as `siblingCount`, with `needsIndexing` set iff
that count exceeds one. -/
theorem annotate_mem_spec (counts : JSMap String Nat) (data : List RawEntry) :
    ∀ (tr : JSMap String Nat) (i : Nat) (e' : ProcessedEntry),
      e' ∈ annotate counts tr i data →
      ∃ e ∈ data, e'.tag = e.tag ∧ e'.parent = e.parent ∧
        siblingKey e = procKey e' ∧
        e'.siblingCount = (counts.get (siblingKey e)).getD 0 ∧
        e'.needsIndexing = decide (1 < (counts.get (siblingKey e)).getD 0) := by
  induction data with
  | nil => intro tr i e' h; simp [annotate] at h
  | cons e rest ih =>
    intro tr i e' h
    rw [procKey_annotate_head, List.mem_cons] at h
    rcases h with h | h
    · refine ⟨e, List.mem_cons_self _ _, ?_⟩
      subst h
      refine ⟨rfl, rfl, rfl, rfl, rfl⟩
    · obtain ⟨e₀, he₀, hspec⟩ := ih _ _ _ h
      exact ⟨e₀, List.mem_cons_of_mem _ he₀, hspec⟩

/-! ### The sibling key determines the parent and the tag

The template string of the source is injective on the entries a scan can
produce: the parent part is `"ROOT"` or a decimal numeral, neither of
which contains a colon, so the first colon separates the two components;
and decimal rendering is injective on ids `≥ 1`. -/

theorem digitChar_inj_blt : ∀ d < 10, ∀ e < 10,
    Nat.digitChar d = Nat.digitChar e → d = e := by decide

theorem digitChar_inj (d e : Nat) (hd : d < 10) (he : e < 10)
    (h : Nat.digitChar d = Nat.digitChar e) : d = e :=
  digitChar_inj_blt d hd e he h

theorem digitChar_isDigit_blt : ∀ d < 10, (Nat.digitChar d).isDigit = true := by
  decide

theorem digitChar_isDigit (d : Nat) (hd : d < 10) :
    (Nat.digitChar d).isDigit = true :=
  digitChar_isDigit_blt d hd

theorem map_digitChar_inj (l₁ : List Nat) :
    ∀ (l₂ : List Nat), (∀ d ∈ l₁, d < 10) → (∀ d ∈ l₂, d < 10) →
      l₁.map Nat.digitChar = l₂.map Nat.digitChar → l₁ = l₂ := by
  induction l₁ with
  | nil => intro l₂ _ _ h; cases l₂ <;> simp_all
  | cons d l₁ ih =>
    intro l₂ h₁ h₂ h
    cases l₂ with
    | nil => simp at h
    | cons e l₂ =>
      simp only [List.map_cons, List.cons.injEq] at h
      have hd := digitChar_inj d e (h₁ d (by simp)) (h₂ e (by simp)) h.1
      have ht := ih l₂ (fun x hx => h₁ x (by simp [hx]))
        (fun x hx => h₂ x (by simp [hx])) h.2
      rw [hd, ht]

theorem natToString_inj (m n : Nat) (h : natToString m = natToString n) : m = n := by
  by_cases hm : m = 0 <;> by_cases hn : n = 0
  · rw [hm, hn]
  · exfalso
    rw [natToString, if_pos hm, natToString, if_neg hn] at h
    have hdata : ("0" : String).data
        = (String.mk (((Nat.digits 10 n).reverse).map Nat.digitChar)).data := by rw [h]
    have hds : [(0 : Nat)] = (Nat.digits 10 n).reverse := by
      apply map_digitChar_inj
      · intro d hd; simp at hd; omega
      · intro d hd
        exact Nat.digits_lt_base (by norm_num) (List.mem_reverse.mp hd)
      · exact hdata
    have hdig : Nat.digits 10 n = [0] := by
      have := congrArg List.reverse hds
      simpa using this.symm
    have : n = 0 := by
      have h0 := Nat.ofDigits_digits 10 n
      rw [hdig] at h0
      simpa [Nat.ofDigits] using h0.symm
    exact hn this
  · exfalso
    rw [natToString, if_neg hm, natToString, if_pos hn] at h
    have hdata : (String.mk (((Nat.digits 10 m).reverse).map Nat.digitChar)).data
        = ("0" : String).data := by rw [h]
    have hds : (Nat.digits 10 m).reverse = [(0 : Nat)] := by
      apply map_digitChar_inj
      · intro d hd
        exact Nat.digits_lt_base (by norm_num) (List.mem_reverse.mp hd)
      · intro d hd; simp at hd; omega
      · exact hdata
    have hdig : Nat.digits 10 m = [0] := by
      have := congrArg List.reverse hds
      simpa using this
    have : m = 0 := by
      have h0 := Nat.ofDigits_digits 10 m
      rw [hdig] at h0
      simpa [Nat.ofDigits] using h0.symm
    exact hm this
  · rw [natToString, if_neg hm, natToString, if_neg hn] at h
    have hdata : (((Nat.digits 10 m).reverse).map Nat.digitChar)
        = (((Nat.digits 10 n).reverse).map Nat.digitChar) := congrArg String.data h
    have hds := map_digitChar_inj _ _
      (fun d hd => Nat.digits_lt_base (by norm_num) (List.mem_reverse.mp hd))
      (fun d hd => Nat.digits_lt_base (by norm_num) (List.mem_reverse.mp hd)) hdata
    have hdig : Nat.digits 10 m = Nat.digits 10 n := by
      have := congrArg List.reverse hds
      simpa using this
    calc m = Nat.ofDigits 10 (Nat.digits 10 m) := (Nat.ofDigits_digits 10 m).symm
      _ = Nat.ofDigits 10 (Nat.digits 10 n) := by rw [hdig]
      _ = n := Nat.ofDigits_digits 10 n

theorem mem_natToString_isDigit (n : Nat) (c : Char)
    (hc : c ∈ (natToString n).data) : c.isDigit = true := by
  by_cases hn : n = 0
  · rw [natToString, if_pos hn] at hc
    have : c = '0' := by simpa using hc
    rw [this]; decide
  · rw [natToString, if_neg hn] at hc
    obtain ⟨d, hd, hdc⟩ := List.mem_map.mp hc
    have : d < 10 := Nat.digits_lt_base (by norm_num) (List.mem_reverse.mp hd)
    rw [← hdc]
    exact digitChar_isDigit d this

theorem colon_not_mem_parentKeyStr (p : Option Nat) :
    ':' ∉ (parentKeyStr p).data := by
  match p with
  | none => decide
  | some 0 => decide
  | some (n + 1) =>
    intro hc
    have := mem_natToString_isDigit (n + 1) ':' hc
    simp at this

theorem parentKeyStr_inj (p q : Option Nat) (hp : p ≠ some 0) (hq : q ≠ some 0)
    (h : parentKeyStr p = parentKeyStr q) : p = q := by
  match p, q with
  | none, none => rfl
  | some 0, _ => exact absurd rfl hp
  | _, some 0 => exact absurd rfl hq
  | none, some (n + 1) =>
    exfalso
    have hR : 'R' ∈ (parentKeyStr (some (n + 1))).data := by
      rw [← h]; decide
    have := mem_natToString_isDigit (n + 1) 'R' hR
    simp at this
  | some (m + 1), none =>
    exfalso
    have hR : 'R' ∈ (parentKeyStr (some (m + 1))).data := by
      rw [h]; decide
    have := mem_natToString_isDigit (m + 1) 'R' hR
    simp at this
  | some (m + 1), some (n + 1) =>
    have := natToString_inj (m + 1) (n + 1) h
    rw [this]

theorem append_colon_inj (a : List Char) :
    ∀ (b u v : List Char), ':' ∉ a → ':' ∉ b →
      a ++ ':' :: u = b ++ ':' :: v → a = b ∧ u = v := by
  induction a with
  | nil =>
    intro b u v _ hb h
    cases b with
    | nil => simpa using h
    | cons c b' =>
      exfalso
      simp only [List.nil_append, List.cons_append, List.cons.injEq] at h
      exact hb (h.1 ▸ List.mem_cons_self _ _)
  | cons c a' ih =>
    intro b u v ha hb h
    cases b with
    | nil =>
      exfalso
      simp only [List.cons_append, List.nil_append, List.cons.injEq] at h
      exact ha (h.1 ▸ List.mem_cons_self _ _)
    | cons c' b' =>
      simp only [List.cons_append, List.cons.injEq] at h
      have := ih b' u v (fun hx => ha (List.mem_cons_of_mem _ hx))
        (fun hx => hb (List.mem_cons_of_mem _ hx)) h.2
      exact ⟨by rw [h.1, this.1], this.2⟩

theorem siblingKey_inj (e₁ e₂ : RawEntry) (h₁ : e₁.parent ≠ some 0)
    (h₂ : e₂.parent ≠ some 0) :
    siblingKey e₁ = siblingKey e₂ ↔ e₁.parent = e₂.parent ∧ e₁.tag = e₂.tag := by
  constructor
  · intro h
    have hdata := congrArg String.data h
    simp only [siblingKey, String.data_append, List.append_assoc,
      List.singleton_append] at hdata
    have hsplit := append_colon_inj _ _ _ _
      (colon_not_mem_parentKeyStr e₁.parent)
      (colon_not_mem_parentKeyStr e₂.parent) hdata
    refine ⟨parentKeyStr_inj _ _ h₁ h₂ ?_, ?_⟩
    · have := congrArg String.mk hsplit.1
      simpa using this
    · have ht := congrArg String.mk hsplit.2
      simpa using ht
  · intro h
    rw [siblingKey, siblingKey, h.1, h.2]

/-! ### C1: the sibling-group invariants -/

/-- For any raw entry list whose parents avoid the falsy id `0` (every
scan produces ids `≥ 1`), membership of a sibling group — same parent
and same tag — coincides with equality of the computed key string. -/
theorem processData_group_iff_key (data : List RawEntry)
    (hp : ∀ e ∈ data, e.parent ≠ some 0) (p : Option Nat) (t : String)
    (hp0 : p ≠ some 0) (e' : ProcessedEntry) (he' : e' ∈ processData data) :
    (e'.parent = p ∧ e'.tag = t) ↔ procKey e' = parentKeyStr p ++ ":" ++ t := by
  constructor
  · intro h
    rw [procKey, h.1, h.2]
  · intro h
    obtain ⟨e₀, he₀, htag, hparent, hkey, _, _⟩ :=
      annotate_mem_spec (buildCounts data) data JSMap.empty 0 e' he'
    have hkey' : siblingKey e₀ = siblingKey ⟨t, 0, 0, p, 0⟩ := by
      rw [hkey, h]; rfl
    have := (siblingKey_inj e₀ ⟨t, 0, 0, p, 0⟩ (hp e₀ he₀) hp0).mp hkey'
    exact ⟨hparent.trans this.1, htag.trans this.2⟩

/-- C1: In every scanned document, within each sibling group (same
parent, same tag name) the `orderInTag` values in document order are
exactly `1, …, groupSize`; every member's `siblingCount` equals the
group's size; and `needsIndexing` holds iff the group has more than one
member.  The hypothesis — no entry has the falsy parent id `0` — holds
for all entries either scanning path produces, since ids start at `1`. -/
theorem c1_sibling_group_invariants (data : List RawEntry)
    (hp : ∀ e ∈ data, e.parent ≠ some 0) (p : Option Nat) (t : String) :
    ((processData data).filter (fun e => e.parent = p ∧ e.tag = t)).map
        (fun e => e.orderInTag)
      = List.range' 1
          ((processData data).filter (fun e => e.parent = p ∧ e.tag = t)).length
    ∧ ∀ e ∈ processData data, e.parent = p → e.tag = t →
        e.siblingCount
            = ((processData data).filter (fun e => e.parent = p ∧ e.tag = t)).length
          ∧ (e.needsIndexing = true ↔
              1 < ((processData data).filter (fun e => e.parent = p ∧ e.tag = t)).length) := by
  by_cases hp0 : p = some 0
  · have hfilter : (processData data).filter (fun e => e.parent = p ∧ e.tag = t) = [] := by
      rw [List.filter_eq_nil_iff]
      intro e' he' hcontra
      obtain ⟨e₀, he₀, _, hparent, _, _, _⟩ :=
        annotate_mem_spec (buildCounts data) data JSMap.empty 0 e' he'
      have : e'.parent = p ∧ e'.tag = t := by simpa using hcontra
      exact hp e₀ he₀ (by rw [← hparent, this.1, hp0])
    refine ⟨by rw [hfilter]; rfl, ?_⟩
    intro e he hpar htag
    exfalso
    obtain ⟨e₀, he₀, _, hparent, _, _, _⟩ :=
      annotate_mem_spec (buildCounts data) data JSMap.empty 0 e he
    exact hp e₀ he₀ (by rw [← hparent, hpar, hp0])
  · have hiff := processData_group_iff_key data hp p t hp0
    have hfc : (processData data).filter (fun e => e.parent = p ∧ e.tag = t)
        = (processData data).filter (fun e => procKey e = parentKeyStr p ++ ":" ++ t) := by
      apply List.filter_congr
      intro e' he'
      have := hiff e' he'
      simp only [decide_eq_decide]
      exact this
    have horders := annotate_group_orders (buildCounts data)
      (parentKeyStr p ++ ":" ++ t) data JSMap.empty 0
    have hempty : ((JSMap.empty : JSMap String Nat).get
        (parentKeyStr p ++ ":" ++ t)).getD 0 + 1 = 1 := rfl
    rw [hempty] at horders
    have hmap : ((processData data).filter (fun e => e.parent = p ∧ e.tag = t)).map
        (fun e => e.orderInTag)
        = List.range' 1 (data.countP (fun e =>
            siblingKey e = parentKeyStr p ++ ":" ++ t)) := by
      rw [hfc]
      exact horders
    have hlen : ((processData data).filter (fun e => e.parent = p ∧ e.tag = t)).length
        = data.countP (fun e => siblingKey e = parentKeyStr p ++ ":" ++ t) := by
      have h1 := congrArg List.length hmap
      rw [List.length_map, List.length_range'] at h1
      exact h1
    refine ⟨by rw [hmap, hlen], ?_⟩
    intro e he hpar htag
    obtain ⟨e₀, he₀, htag₀, hparent₀, hkey₀, hcnt₀, hneed₀⟩ :=
      annotate_mem_spec (buildCounts data) data JSMap.empty 0 e he
    have hk : siblingKey e₀ = parentKeyStr p ++ ":" ++ t := by
      rw [hkey₀]
      exact (hiff e he).mp ⟨hpar, htag⟩
    have hcount : e.siblingCount
        = data.countP (fun e => siblingKey e = parentKeyStr p ++ ":" ++ t) := by
      rw [hcnt₀, hk, buildCounts_get]
    constructor
    · rw [hcount, hlen]
    · rw [hneed₀, hk, buildCounts_get, hlen]
      simp

/-- The raw entries the tokenizer would push for `<a><b/><b/><c/></a>`. -/
def sampleScan : List RawEntry :=
  [⟨"a", 0, 0, none, 1⟩, ⟨"b", 3, 0, some 1, 2⟩,
   ⟨"b", 8, 0, some 1, 3⟩, ⟨"c", 13, 0, some 1, 4⟩]

/-- Witness for C1 at the spec's own scenario `<a><b/><b/><c/></a>`,
group `(parent a, tag b)`. -/
theorem c1_sibling_group_invariants_witness :
    (∀ e ∈ sampleScan, e.parent ≠ some 0)
    ∧ (((processData sampleScan).filter
          (fun e => e.parent = some 1 ∧ e.tag = "b")).map (fun e => e.orderInTag)
        = List.range' 1
            ((processData sampleScan).filter
              (fun e => e.parent = some 1 ∧ e.tag = "b")).length
      ∧ ∀ e ∈ processData sampleScan, e.parent = some 1 → e.tag = "b" →
          e.siblingCount
              = ((processData sampleScan).filter
                  (fun e => e.parent = some 1 ∧ e.tag = "b")).length
            ∧ (e.needsIndexing = true ↔
                1 < ((processData sampleScan).filter
                    (fun e => e.parent = some 1 ∧ e.tag = "b")).length)) :=
  ⟨by decide, c1_sibling_group_invariants sampleScan (by decide) (some 1) "b"⟩

/-! ## Chunked scanner (`processChunkRegex` / `scanLargeDocument`)

The chunk regex `/<\/?([A-Za-z0-9_:-]+)(?:\s[^>]*?)?(?:\/>|>)/g` is
modelled by a deterministic scanner.  Backtracking never changes the
outcome for this pattern: the characters a shortened name run would give
back are name characters, which can start neither `\s`, `/>` nor `>`;
and the lazy `[^>]*?` stops at the first position where `/>` or `>`
matches, never crossing a `>`. -/

/-- The character class `[A-Za-z0-9_:-]` of the chunk regex. -/
def isNameChar (c : Char) : Bool :=
  c.isAlpha || c.isDigit || c = '_' || c = ':' || c = '-'

/-- JS `\s` (the ASCII part, which is all the scanned inputs use). -/
def isJsSpace (c : Char) : Bool :=
  c = ' ' || c = '\t' || c = '\n' || c = '\r' || c = Char.ofNat 11 || c = Char.ofNat 12

/-- `s.split("\n").length - 1`: the number of newlines in `s`. -/
def countNewlines (l : List Char) : Nat :=
  l.countP (fun c => c = '\n')

/-- One regex match: `match.index` (chunk relative), the length of
`match[0]`, the captured tag name `match[1]`, and whether `match[0]`
starts with `"</"`. -/
structure ChunkMatch where
  index : Nat
  len : Nat
  tag : String
  isClose : Bool
  deriving DecidableEq, Repr

/-- The lazy attribute part `[^>]*?(?:\/>|>)`: scan forward to the first
position where `/>` or `>` matches; `>` never gets consumed by `[^>]`.
Returns the number of characters consumed (terminator included). -/
def attrScan : List Char → Option Nat
  | [] => none
  | '/' :: '>' :: _ => some 2
  | '>' :: _ => some 1
  | _ :: r => (attrScan r).map (fun n => n + 1)

/-- What may follow the captured name: `(?:\s[^>]*?)?(?:\/>|>)` —
directly `/>` (2 characters) or `>` (1), or a `\s` followed by the lazy
attribute scan.  Returns the number of characters consumed. -/
def restMatch : List Char → Option Nat
  | [] => none
  | '/' :: '>' :: _ => some 2
  | '>' :: _ => some 1
  | c :: r => if isJsSpace c then (attrScan r).map (fun n => n + 1) else none

/-- Attempt the suffix of the pattern after `<` and the optional `/`:
`([A-Za-z0-9_:-]+)(?:\s[^>]*?)?(?:\/>|>)`.  `pre` counts the characters
already consumed (`1` or `2`); returns the total match length and the
captured name. -/
def tryMatchFrom (pre : Nat) (rest2 : List Char) : Option (Nat × String) :=
  let name := rest2.takeWhile isNameChar
  if name.isEmpty then none
  else (restMatch (rest2.drop name.length)).map
    (fun k => (pre + name.length + k, String.mk name))

/-- Attempt a match of the chunk regex at the head of `l`:
the match length, the tag name, and the close flag. -/
def tryMatch : List Char → Option (Nat × String × Bool)
  | '<' :: '/' :: rest2 =>
    (tryMatchFrom 2 rest2).map (fun r => (r.1, r.2, true))
  | '<' :: rest =>
    (tryMatchFrom 1 rest).map (fun r => (r.1, r.2, false))
  | _ => none

theorem attrScan_pos (l : List Char) (n : Nat) (h : attrScan l = some n) : 0 < n := by
  rw [attrScan.eq_def] at h
  split at h
  · exact absurd h (by simp)
  · simp only [Option.some.injEq] at h
    omega
  · simp only [Option.some.injEq] at h
    omega
  · obtain ⟨k, _, hk⟩ := Option.map_eq_some'.mp h
    have hk' : k + 1 = n := hk
    omega

theorem attrScan_le_length : ∀ (l : List Char) (n : Nat),
    attrScan l = some n → n ≤ l.length := by
  intro l
  induction l with
  | nil => intro n h; exact absurd h (by rw [attrScan.eq_def]; simp)
  | cons c rest ih =>
    intro n h
    rw [attrScan.eq_def] at h
    split at h
    · exact absurd h (by simp)
    · next h1 h2 =>
      simp only [Option.some.injEq] at h
      rw [h2]
      simp only [List.length_cons]
      omega
    · simp only [Option.some.injEq] at h
      simp only [List.length_cons]
      omega
    · next c' r heq =>
      obtain ⟨k, hk, hkn⟩ := Option.map_eq_some'.mp h
      injection heq with h1 h2
      have := ih k (h2 ▸ hk)
      have hn : k + 1 = n := hkn
      simp only [List.length_cons]
      omega

theorem restMatch_pos (l : List Char) (k : Nat) (h : restMatch l = some k) :
    0 < k := by
  rw [restMatch.eq_def] at h
  split at h
  · exact absurd h (by simp)
  · simp only [Option.some.injEq] at h
    omega
  · simp only [Option.some.injEq] at h
    omega
  · split at h
    · obtain ⟨k', _, hk⟩ := Option.map_eq_some'.mp h
      have hk' : k' + 1 = k := hk
      omega
    · exact absurd h (by simp)

theorem restMatch_le_length (l : List Char) (k : Nat) (h : restMatch l = some k) :
    k ≤ l.length := by
  rw [restMatch.eq_def] at h
  split at h
  · exact absurd h (by simp)
  · simp only [Option.some.injEq] at h
    simp only [List.length_cons]
    omega
  · simp only [Option.some.injEq] at h
    simp only [List.length_cons]
    omega
  · split at h
    · obtain ⟨k', hk', hkk⟩ := Option.map_eq_some'.mp h
      have hle := attrScan_le_length _ _ hk'
      have hk2 : k' + 1 = k := hkk
      simp only [List.length_cons]
      omega
    · exact absurd h (by simp)

theorem tryMatchFrom_pos (pre : Nat) (rest2 : List Char) (n : Nat) (s : String)
    (h : tryMatchFrom pre rest2 = some (n, s)) : 0 < n := by
  rw [tryMatchFrom] at h
  split at h
  · exact absurd h (by simp)
  · obtain ⟨k, hk, hkk⟩ := Option.map_eq_some'.mp h
    have := restMatch_pos _ _ hk
    have hn : pre + (rest2.takeWhile isNameChar).length + k = n := by
      have := congrArg Prod.fst hkk
      simpa using this
    omega

theorem tryMatch_pos (l : List Char) (m : Nat × String × Bool)
    (h : tryMatch l = some m) : 0 < m.1 := by
  rw [tryMatch.eq_def] at h
  split at h
  · obtain ⟨⟨n, s⟩, hr, hm⟩ := Option.map_eq_some'.mp h
    have := tryMatchFrom_pos _ _ _ _ hr
    rw [← hm]
    simpa using this
  · obtain ⟨⟨n, s⟩, hr, hm⟩ := Option.map_eq_some'.mp h
    have := tryMatchFrom_pos _ _ _ _ hr
    rw [← hm]
    simpa using this
  · exact absurd h (by simp)

/-- The `while ((match = regex.exec(chunk)))` loop: repeatedly find the
leftmost match at or after the current position and continue after it.
`i` is the absolute position of the head of `l` within the chunk. -/
def scanMatches (l : List Char) (i : Nat) : List ChunkMatch :=
  match l with
  | [] => []
  | c :: rest =>
    match h : tryMatch (c :: rest) with
    | some m =>
      ⟨i, m.1, m.2.1, m.2.2⟩ :: scanMatches ((c :: rest).drop m.1) (i + m.1)
    | none => scanMatches rest (i + 1)
termination_by l.length
decreasing_by
  · have hpos := tryMatch_pos _ _ h
    simp only [List.length_drop, List.length_cons]
    omega
  · simp only [List.length_cons]
    omega

/-- The entry-emitting part of the `processChunkRegex` loop body:
close matches are skipped, every other match increments the id and
produces an entry whose `line` counts newlines in the *chunk* prefix and
whose `parent` is `null`. -/
def chunkEntries (chunk : List Char) (startOffset : Nat) :
    List ChunkMatch → Nat → List RawEntry × Nat
  | [], id => ([], id)
  | m :: ms, id =>
    if m.isClose then chunkEntries chunk startOffset ms id
    else
      ((⟨m.tag, startOffset + m.index, countNewlines (chunk.take m.index),
         none, id + 1⟩ : RawEntry) :: (chunkEntries chunk startOffset ms (id + 1)).1,
       (chunkEntries chunk startOffset ms (id + 1)).2)

/-- `processChunkRegex(chunk, startOffset, startId)`: regex-scan one
chunk; returns `{ entries, nextId }`. -/
def processChunkRegex (chunk : List Char) (startOffset startId : Nat) :
    List RawEntry × Nat :=
  chunkEntries chunk startOffset (scanMatches chunk 0) startId

/-- The chunk loop of `scanLargeDocument`: slices of `10000` characters,
each scanned independently, with the id threaded through.  (The
`await`-based yielding between chunks has no effect on the data.) -/
def scanLargeGo (l : List Char) (start globalId : Nat) : List RawEntry :=
  match l with
  | [] => []
  | c :: rest =>
    let chunk := (c :: rest).take 10000
    let r := processChunkRegex chunk start globalId
    r.1 ++ scanLargeGo ((c :: rest).drop 10000) (start + 10000) r.2
termination_by l.length
decreasing_by
  simp only [List.length_drop, List.length_cons]
  omega

/-- `scanLargeDocument`'s produced data (chunkSize 10000, ids from 0). -/
def scanLargeData (text : List Char) : List RawEntry :=
  scanLargeGo text 0 0

/-! ## Regular tokenizer loop (`scanRegularDocument`)

The loop consumes a token stream whose shape the source documents as
`[{type, tagName, startIndex, ...}, ...]`; the tokens themselves come
from outside the repository, so they are an abstract input here.  The
loop reads two discriminator fields: `tok.type` (tested against
`"opentag"` / `"selfclose"`) and `tok.tokenType` (tested against
`"OpenTag"` / `"CloseTag"`). -/

structure Token where
  type : String
  tokenType : String
  tagName : String
  startIndex : Nat
  deriving DecidableEq, Repr

/-- The `for (const tok of tokens)` loop of `scanRegularDocument`,
with `globalId` and the nesting `stack` (top = list head, frames
`{ id, tag }`) threaded through. -/
def scanRegularGo (text : List Char) :
    List Token → Nat → List (Nat × String) → List RawEntry
  | [], _, _ => []
  | tok :: rest, globalId, stack =>
    if tok.type = "opentag" ∨ tok.type = "selfclose" then
      (⟨tok.tagName, tok.startIndex, countNewlines (text.take tok.startIndex),
        stack.head?.map Prod.fst, globalId + 1⟩ : RawEntry)
        :: scanRegularGo text rest (globalId + 1)
            (if tok.tokenType = "OpenTag" then (globalId + 1, tok.tagName) :: stack
             else stack)
    else if tok.tokenType = "CloseTag" then
      scanRegularGo text rest globalId stack.tail
    else
      scanRegularGo text rest globalId stack

/-- The token loop of `scanRegularDocument` (lines 108-130). -/
def scanRegularData (text : List Char) (tokens : List Token) : List RawEntry :=
  scanRegularGo text tokens 0 []

/-- A token stream is coherently labelled when its two discriminator
fields agree: a token declared `"opentag"` carries `tokenType`
`"OpenTag"`, and a token declared `"selfclose"` does not. -/
def Coherent (tokens : List Token) : Prop :=
  ∀ tok ∈ tokens, (tok.type = "opentag" → tok.tokenType = "OpenTag")
    ∧ (tok.type = "selfclose" → tok.tokenType ≠ "OpenTag")

/-- Proper nesting check: walking the token stream with a stack of open
tag names, every closing token must match the innermost open tag. -/
def nestCheck : List Token → List String → Bool
  | [], _ => true
  | tok :: rest, st =>
    if tok.type = "opentag" then nestCheck rest (tok.tagName :: st)
    else if tok.type = "selfclose" then nestCheck rest st
    else if tok.tokenType = "CloseTag" then
      if st.head? = some tok.tagName then nestCheck rest st.tail else false
    else nestCheck rest st

def ProperlyNested (tokens : List Token) : Prop :=
  nestCheck tokens [] = true

instance (tokens : List Token) : Decidable (Coherent tokens) := by
  unfold Coherent
  infer_instance

instance (tokens : List Token) : Decidable (ProperlyNested tokens) := by
  unfold ProperlyNested
  infer_instance

/-- The claim's own stack algorithm, written from the spec's words: an
opening tag is assigned the next id and the id of the innermost
still-open tag (stack top) as parent, and is pushed unless it is
self-closing; a matching closing tag pops the stack. -/
def specNestingGo (text : List Char) :
    List Token → Nat → List (Nat × String) → List RawEntry
  | [], _, _ => []
  | tok :: rest, nextId, openStack =>
    if tok.type = "opentag" then
      (⟨tok.tagName, tok.startIndex, countNewlines (text.take tok.startIndex),
        openStack.head?.map Prod.fst, nextId + 1⟩ : RawEntry)
        :: specNestingGo text rest (nextId + 1) ((nextId + 1, tok.tagName) :: openStack)
    else if tok.type = "selfclose" then
      (⟨tok.tagName, tok.startIndex, countNewlines (text.take tok.startIndex),
        openStack.head?.map Prod.fst, nextId + 1⟩ : RawEntry)
        :: specNestingGo text rest (nextId + 1) openStack
    else if tok.tokenType = "CloseTag" then
      if openStack.head?.map Prod.snd = some tok.tagName then
        specNestingGo text rest nextId openStack.tail
      else specNestingGo text rest nextId openStack
    else specNestingGo text rest nextId openStack

/-- Spec-side scan: the claim's nesting algorithm over the same stream. -/
def specNestingScan (text : List Char) (tokens : List Token) : List RawEntry :=
  specNestingGo text tokens 0 []

theorem scanRegularGo_eq_specNestingGo (text : List Char) (tokens : List Token) :
    ∀ (gid : Nat) (stack : List (Nat × String)),
      Coherent tokens → nestCheck tokens (stack.map Prod.snd) = true →
      scanRegularGo text tokens gid stack = specNestingGo text tokens gid stack := by
  induction tokens with
  | nil => intro gid stack _ _; rfl
  | cons tok rest ih =>
    intro gid stack hcoh hnest
    have hcoh_tok := hcoh tok (List.mem_cons_self _ _)
    have hcoh_rest : Coherent rest := fun t ht => hcoh t (List.mem_cons_of_mem _ ht)
    by_cases hopen : tok.type = "opentag"
    · have hTT : tok.tokenType = "OpenTag" := hcoh_tok.1 hopen
      rw [nestCheck, if_pos hopen] at hnest
      rw [scanRegularGo, specNestingGo, if_pos (Or.inl hopen), if_pos hopen,
        if_pos hTT]
      exact congrArg _ (ih (gid + 1) ((gid + 1, tok.tagName) :: stack) hcoh_rest
        (by simpa using hnest))
    · by_cases hself : tok.type = "selfclose"
      · have hTT : tok.tokenType ≠ "OpenTag" := hcoh_tok.2 hself
        rw [nestCheck, if_neg hopen, if_pos hself] at hnest
        rw [scanRegularGo, specNestingGo, if_pos (Or.inr hself), if_neg hopen,
          if_pos hself, if_neg hTT]
        exact congrArg _ (ih (gid + 1) stack hcoh_rest hnest)
      · have hno : ¬ (tok.type = "opentag" ∨ tok.type = "selfclose") := by
          intro hc; rcases hc with hc | hc
          · exact hopen hc
          · exact hself hc
        by_cases hclose : tok.tokenType = "CloseTag"
        · rw [nestCheck, if_neg hopen, if_neg hself, if_pos hclose] at hnest
          rw [scanRegularGo, specNestingGo, if_neg hno, if_pos hclose,
            if_neg hopen, if_neg hself, if_pos hclose]
          split at hnest
          · next heq =>
            have heq2 : stack.head?.map Prod.snd = some tok.tagName := by
              rw [← List.head?_map]
              exact heq
            rw [if_pos heq2]
            have htail : (List.map Prod.snd stack).tail
                = List.map Prod.snd stack.tail := (List.map_tail _ _).symm
            rw [htail] at hnest
            exact ih gid stack.tail hcoh_rest hnest
          · simp at hnest
        · rw [nestCheck, if_neg hopen, if_neg hself, if_neg hclose] at hnest
          rw [scanRegularGo, specNestingGo, if_neg hno, if_neg hclose,
            if_neg hopen, if_neg hself, if_neg hclose]
          exact ih gid stack hcoh_rest hnest

/-! ### Parent shapes of the two scanning paths -/

/-- Chunked entries carry `parent: null` (the source literally writes
`parent: null, // Simplified for chunked processing`). -/
theorem chunkEntries_parent_none (chunk : List Char) (startOffset : Nat)
    (ms : List ChunkMatch) :
    ∀ (id : Nat) (e : RawEntry),
      e ∈ (chunkEntries chunk startOffset ms id).1 → e.parent = none := by
  induction ms with
  | nil => intro id e h; simp [chunkEntries] at h
  | cons m ms ih =>
    intro id e h
    rw [chunkEntries] at h
    split at h
    · exact ih id e h
    · rcases List.mem_cons.mp h with h | h
      · rw [h]
      · exact ih (id + 1) e h

theorem scanLargeGo_parent_none_bounded (n : Nat) :
    ∀ (l : List Char), l.length ≤ n → ∀ (start gid : Nat) (e : RawEntry),
      e ∈ scanLargeGo l start gid → e.parent = none := by
  induction n with
  | zero =>
    intro l hl start gid e h
    have : l = [] := List.length_eq_zero.mp (Nat.le_zero.mp hl)
    rw [this, scanLargeGo] at h
    simp at h
  | succ n ih =>
    intro l hl start gid e h
    match l with
    | [] => rw [scanLargeGo] at h; simp at h
    | c :: rest =>
      rw [scanLargeGo] at h
      rcases List.mem_append.mp h with h | h
      · exact chunkEntries_parent_none _ _ _ _ _ h
      · refine ih ((c :: rest).drop 10000) ?_ _ _ e h
        simp only [List.length_drop, List.length_cons] at *
        omega

/-- Every occurrence the chunked path produces has `parent = null`. -/
theorem scanLargeData_parent_none (text : List Char) (e : RawEntry)
    (h : e ∈ scanLargeData text) : e.parent = none :=
  scanLargeGo_parent_none_bounded text.length text (Nat.le_refl _) 0 0 e h

/-- The regular tokenizer only assigns ids `≥ 1` as parents: they come
from stack frames pushed with `globalId + 1`. -/
theorem scanRegularGo_parent_pos (text : List Char) (tokens : List Token) :
    ∀ (gid : Nat) (stack : List (Nat × String)),
      (∀ p ∈ stack, 0 < p.1) →
      ∀ e ∈ scanRegularGo text tokens gid stack, e.parent ≠ some 0 := by
  induction tokens with
  | nil => intro gid stack _ e h; simp [scanRegularGo] at h
  | cons tok rest ih =>
    intro gid stack hstack e h
    rw [scanRegularGo] at h
    split at h
    · rcases List.mem_cons.mp h with h | h
      · rw [h]
        match stack, hstack with
        | [], _ => simp
        | p :: st', hstack =>
          have := hstack p (List.mem_cons_self _ _)
          simp only [List.head?, Option.map_some]
          intro hc
          have : p.1 = 0 := by simpa using hc
          omega
      · refine ih (gid + 1) _ ?_ e h
        split
        · intro p hp
          rcases List.mem_cons.mp hp with hp | hp
          · rw [hp]; omega
          · exact hstack p hp
        · exact hstack
    · split at h
      · exact ih gid stack.tail
          (fun p hp => hstack p (List.mem_of_mem_tail hp)) e h
      · exact ih gid stack hstack e h

theorem scanRegularData_parent_ok (text : List Char) (tokens : List Token)
    (e : RawEntry) (h : e ∈ scanRegularData text tokens) : e.parent ≠ some 0 :=
  scanRegularGo_parent_pos text tokens 0 [] (by simp) e h

/-! ### C4: parent links on the regular path -/

/-- C4: For a coherently labelled, properly nested token stream, the
token loop of `scanRegularDocument` computes exactly the claim's stack
algorithm: each opening or self-closing tag receives the next id and the
id of the innermost still-open tag as `parent` (ROOT/`null` when no tag
is open), opening tags are pushed unless self-closing, and a matching
closing tag pops the stack. -/
theorem c4_regular_scan_parent_links (text : List Char) (tokens : List Token)
    (hcoh : Coherent tokens) (hnest : ProperlyNested tokens) :
    scanRegularData text tokens = specNestingScan text tokens :=
  scanRegularGo_eq_specNestingGo text tokens 0 [] hcoh hnest

/-- Token stream for the nested fixture `<a><b><c/></b><b/></a>`. -/
def sampleTokens : List Token :=
  [⟨"opentag", "OpenTag", "a", 0⟩, ⟨"opentag", "OpenTag", "b", 3⟩,
   ⟨"selfclose", "SelfClose", "c", 6⟩, ⟨"closetag", "CloseTag", "b", 10⟩,
   ⟨"selfclose", "SelfClose", "b", 14⟩, ⟨"closetag", "CloseTag", "a", 18⟩]

/-- Witness for C4 at the handcrafted nested fixture. -/
theorem c4_regular_scan_parent_links_witness :
    Coherent sampleTokens ∧ ProperlyNested sampleTokens
    ∧ scanRegularData [] sampleTokens = specNestingScan [] sampleTokens :=
  ⟨by decide, by decide,
    c4_regular_scan_parent_links [] sampleTokens (by decide) (by decide)⟩

/-! ## Version-gated cache (`shouldReindex`, `scanDocumentForTags`,
`processAndCacheResults` store, `cleanupMemory`)

The module-level mutable maps `documentCache` and
`lastIndexedVersionMap` form the state.  Asynchronous scans interleave
on the single event loop; each synchronous section (the `shouldReindex`
check at scan start, the unconditional cache store at scan end, a
cleanup) is one atomic step on this state. -/

structure IndexerState where
  documentCache : JSMap String (List ProcessedEntry)
  lastIndexedVersionMap : JSMap String Nat
  deriving DecidableEq

def initialState : IndexerState := ⟨JSMap.empty, JSMap.empty⟩

/-- `shouldReindex(document)` (lines 65-74): reads
`lastIndexedVersionMap`; `!lastVersion` is truthy when the entry is
absent *or* stores the falsy version `0`.  On a hit of the fast path it
returns `false` and leaves the state unchanged; otherwise it records the
current version and returns `true`. -/
def shouldReindex (docKey : String) (currentVersion : Nat) (s : IndexerState) :
    Bool × IndexerState :=
  let lastVersion := s.lastIndexedVersionMap.get docKey
  if lastVersion.getD 0 = 0 ∨ lastVersion ≠ some currentVersion then
    (true, { s with
      lastIndexedVersionMap := s.lastIndexedVersionMap.set docKey currentVersion })
  else (false, s)

/-- The store step of `processAndCacheResults` (lines 232-242): process
the raw data and write the result into `documentCache` unconditionally —
there is no check against the current document version. -/
def processAndCacheResults (docKey : String) (data : List RawEntry)
    (s : IndexerState) : List ProcessedEntry × IndexerState :=
  let processed := processData data
  (processed, { s with documentCache := s.documentCache.set docKey processed })

/-- `LARGE_FILE_THRESHOLD = 50000` (line 16). -/
def LARGE_FILE_THRESHOLD : Nat := 50000

/-- The path selection of `scanDocumentForTags` (lines 252-257): the
chunked scanner above the threshold, the regular tokenizer otherwise.
`tokens` is the external parser's stream for `text`, consumed only on
the regular path. -/
def scanPathData (text : List Char) (tokens : List Token) : List RawEntry :=
  if LARGE_FILE_THRESHOLD < text.length then scanLargeData text
  else scanRegularData text tokens

/-- `scanDocumentForTags(document)` (lines 246-258) as one cache-lookup
plus (possibly) one scan.  The returned `Bool` records whether the
tokenizing path ran (the scan-count observable of the spec's tests).
When `shouldReindex` is false and the cache holds the document, the
cached array itself is returned. -/
def scanDocumentForTags (text : List Char) (tokens : List Token)
    (docKey : String) (currentVersion : Nat) (s : IndexerState) :
    List ProcessedEntry × IndexerState × Bool :=
  let r := shouldReindex docKey currentVersion s
  if r.1 = false then
    match r.2.documentCache.get docKey with
    | some cached => (cached, r.2, false)
    | none =>
      let p := processAndCacheResults docKey (scanPathData text tokens) r.2
      (p.1, p.2, true)
  else
    let p := processAndCacheResults docKey (scanPathData text tokens) r.2
    (p.1, p.2, true)

/-- `cleanupMemory()` (lines 636-652): when more than `MAX_CACHE_SIZE =
5` documents are cached, delete the first `size - 5` entries of the
cache's iteration order from both maps. -/
def cleanupMemory (s : IndexerState) : IndexerState :=
  if 5 < s.documentCache.size then
    (s.documentCache.entries.take (s.documentCache.entries.length - 5)).foldl
      (fun st kv =>
        { documentCache := st.documentCache.delete kv.1,
          lastIndexedVersionMap := st.lastIndexedVersionMap.delete kv.1 })
      s
  else s

/-! ### C3: the version gate -/

/-- C3: `scanDocumentForTags` serves the cached array only when the
stored version equals the current one (A); re-scanning at an unchanged,
completed version returns the previously cached array itself without
running a tokenizer and without touching the state (B); and a scan at a
version different from the stored one runs the tokenizing path again
(C). -/
theorem c3_cache_version_gate (text : List Char) (tokens : List Token)
    (docKey : String) (v : Nat) (s : IndexerState) :
    ((scanDocumentForTags text tokens docKey v s).2.2 = false →
      s.lastIndexedVersionMap.get docKey = some v)
    ∧ (∀ d, s.lastIndexedVersionMap.get docKey = some v → 0 < v →
        s.documentCache.get docKey = some d →
        scanDocumentForTags text tokens docKey v s = (d, s, false))
    ∧ (∀ v₀, s.lastIndexedVersionMap.get docKey = some v₀ → v₀ ≠ v →
        (scanDocumentForTags text tokens docKey v s).2.2 = true
        ∧ (scanDocumentForTags text tokens docKey v s).1
            = processData (scanPathData text tokens)) := by
  refine ⟨?_, ?_, ?_⟩
  · intro hflag
    rw [scanDocumentForTags] at hflag
    by_cases hC : ((s.lastIndexedVersionMap.get docKey).getD 0 = 0
        ∨ s.lastIndexedVersionMap.get docKey ≠ some v)
    · rw [shouldReindex, if_pos hC] at hflag
      simp at hflag
    · push_neg at hC
      exact hC.2
  · intro d hver hpos hcache
    have hC : ¬ ((s.lastIndexedVersionMap.get docKey).getD 0 = 0
        ∨ s.lastIndexedVersionMap.get docKey ≠ some v) := by
      rw [hver]
      simp only [Option.getD_some, ne_eq, not_or, not_not]
      exact ⟨by omega, by trivial⟩
    rw [scanDocumentForTags, shouldReindex, if_neg hC]
    simp [hcache]
  · intro v₀ hver hne
    have hC : ((s.lastIndexedVersionMap.get docKey).getD 0 = 0
        ∨ s.lastIndexedVersionMap.get docKey ≠ some v) := by
      right
      rw [hver]
      simp [hne]
    rw [scanDocumentForTags, shouldReindex, if_pos hC]
    exact ⟨rfl, rfl⟩

/-- A state in which `"doc"` was completely scanned at version `1`. -/
def c3SampleState : IndexerState :=
  ⟨[("doc", [])], [("doc", 1)]⟩

/-- Witness for C3: with version `1` scanned and cached, a repeat scan
at version `1` returns the cached array without re-tokenizing. -/
theorem c3_cache_version_gate_witness :
    c3SampleState.lastIndexedVersionMap.get "doc" = some 1 ∧ 0 < 1
    ∧ c3SampleState.documentCache.get "doc" = some []
    ∧ scanDocumentForTags [] [] "doc" 1 c3SampleState = ([], c3SampleState, false) :=
  ⟨by decide, by decide, by decide,
    (c3_cache_version_gate [] [] "doc" 1 c3SampleState).2.1 []
      (by decide) (by decide) (by decide)⟩

/-! ### C2: there is no version fence

`processAndCacheResults` stores unconditionally.  An async chunked scan
started at version `v` that completes after version `v + 1` was scanned
and cached therefore *overwrites* the newer result with the stale one.
The four atomic steps below are the event-loop interleaving of the
spec's §8 scenario: scan at `v` starts, scan at `v + 1` starts and
completes, then the stale `v` scan completes. -/

/-- The state after: `shouldReindex(v)`, `shouldReindex(v+1)`,
store of the `v+1` result, store of the stale `v` result. -/
def staleStoreRun (docKey : String) (v : Nat) (dStale dFresh : List RawEntry)
    (s : IndexerState) : IndexerState :=
  let s₁ := (shouldReindex docKey v s).2
  let s₂ := (shouldReindex docKey (v + 1) s₁).2
  let s₃ := (processAndCacheResults docKey dFresh s₂).2
  (processAndCacheResults docKey dStale s₃).2

/-- Counterexample to C2: in the spec's own race scenario the cache ends
up holding the *stale* version-1 result, not the version-2 result — the
store is never rejected.  Afterwards the version map says `2`, so the
stale data is served for version `2` without rescan. -/
theorem c2_version_fence_counterexample :
    (shouldReindex "doc" 1 initialState).1 = true
    ∧ (shouldReindex "doc" 2 (shouldReindex "doc" 1 initialState).2).1 = true
    ∧ (staleStoreRun "doc" 1 [⟨"a", 0, 0, none, 1⟩] [] initialState).documentCache.get "doc"
        = some (processData [⟨"a", 0, 0, none, 1⟩])
    ∧ processData [⟨"a", 0, 0, none, 1⟩] ≠ processData ([] : List RawEntry)
    ∧ (staleStoreRun "doc" 1 [⟨"a", 0, 0, none, 1⟩] [] initialState).lastIndexedVersionMap.get "doc"
        = some 2 := by
  refine ⟨by decide, by decide, by decide, by decide, by decide⟩

/-- C2 as amended: the store step has no version fence.  Whenever a scan
begun at version `v` commits after a scan at version `v + 1` has already
committed, the stale result overwrites the fresh one (last write wins),
while the version map still records `v + 1`. -/
theorem c2_stale_store_overwrites (docKey : String) (v : Nat)
    (dStale dFresh : List RawEntry) (s : IndexerState)
    (hnone : s.lastIndexedVersionMap.get docKey = none) :
    (shouldReindex docKey v s).1 = true
    ∧ (shouldReindex docKey (v + 1) (shouldReindex docKey v s).2).1 = true
    ∧ (staleStoreRun docKey v dStale dFresh s).documentCache.get docKey
        = some (processData dStale)
    ∧ (staleStoreRun docKey v dStale dFresh s).lastIndexedVersionMap.get docKey
        = some (v + 1) := by
  have h1 : (s.lastIndexedVersionMap.get docKey).getD 0 = 0 ∨
      s.lastIndexedVersionMap.get docKey ≠ some v := by
    rw [hnone]; left; rfl
  have hstep1 : shouldReindex docKey v s = (true, { s with
      lastIndexedVersionMap := s.lastIndexedVersionMap.set docKey v }) := by
    rw [shouldReindex, if_pos h1]
  have hget1 : (s.lastIndexedVersionMap.set docKey v).get docKey = some v :=
    JSMap.get_set_self _ _ _
  have h2 : (((shouldReindex docKey v s).2).lastIndexedVersionMap.get docKey).getD 0 = 0 ∨
      ((shouldReindex docKey v s).2).lastIndexedVersionMap.get docKey ≠ some (v + 1) := by
    rw [hstep1]
    right
    rw [hget1]
    simp only [ne_eq, Option.some.injEq]
    omega
  have hstep2 : shouldReindex docKey (v + 1) (shouldReindex docKey v s).2
      = (true, { (shouldReindex docKey v s).2 with
          lastIndexedVersionMap :=
            ((shouldReindex docKey v s).2).lastIndexedVersionMap.set docKey (v + 1) }) := by
    rw [shouldReindex, if_pos h2]
  refine ⟨by rw [hstep1], by rw [hstep2], ?_, ?_⟩
  · rw [staleStoreRun]
    simp only [processAndCacheResults]
    exact JSMap.get_set_self _ _ _
  · rw [staleStoreRun]
    simp only [processAndCacheResults]
    rw [hstep2]
    exact JSMap.get_set_self _ _ _

/-- Witness for the amended C2 statement at a concrete run. -/
theorem c2_stale_store_overwrites_witness :
    initialState.lastIndexedVersionMap.get "doc" = none
    ∧ ((shouldReindex "doc" 3 initialState).1 = true
      ∧ (shouldReindex "doc" 4 (shouldReindex "doc" 3 initialState).2).1 = true
      ∧ (staleStoreRun "doc" 3 [⟨"x", 0, 0, none, 1⟩] [] initialState).documentCache.get "doc"
          = some (processData [⟨"x", 0, 0, none, 1⟩])
      ∧ (staleStoreRun "doc" 3 [⟨"x", 0, 0, none, 1⟩] [] initialState).lastIndexedVersionMap.get "doc"
          = some 4) :=
  ⟨by decide, c2_stale_store_overwrites "doc" 3 [⟨"x", 0, 0, none, 1⟩] []
    initialState (by decide)⟩

/-! ### C7: eviction is first-insertion order, not least-recently-used

`cleanupMemory` deletes the *first* `size - 5` pairs of the cache's
iteration order.  A JS `Map` iterates in insertion order and `set` on an
existing key keeps its original position, so re-scanning (re-`set`ting)
or re-reading a document does not move it: eviction is FIFO over first
insertion, not LRU. -/

/-- The cache after storing D1..D5, re-scanning D1 (making it the most
recently used), then storing D6 — exactly the claim's scenario with D1
most recently used. -/
def sixDocState : IndexerState :=
  { documentCache :=
      ((((((JSMap.empty.set "D1" []).set "D2" []).set "D3" []).set "D4" []).set
        "D5" []).set "D1" []).set "D6" [],
    lastIndexedVersionMap :=
      (((((JSMap.empty.set "D1" 1).set "D2" 1).set "D3" 1).set "D4" 1).set
        "D5" 1).set "D6" 1 }

/-- Counterexample to C7: with D1 re-scanned *after* D2..D5 (so D2 is
the least recently used document), inserting D6 and cleaning up evicts
D1 — the most recently used entry — while D2 survives.  Eviction is not
least-recently-used. -/
theorem c7_lru_counterexample :
    (cleanupMemory sixDocState).documentCache.get "D1" = none
    ∧ (cleanupMemory sixDocState).documentCache.get "D2" = some []
    ∧ (cleanupMemory sixDocState).lastIndexedVersionMap.get "D1" = none := by
  refine ⟨by decide, by decide, by decide⟩

theorem cleanup_fold_documentCache (p : List (String × List ProcessedEntry)) :
    ∀ (s : IndexerState) (q : List (String × List ProcessedEntry)),
      s.documentCache = p ++ q → ((p ++ q).map Prod.fst).Nodup →
      (p.foldl (fun st kv =>
          { documentCache := st.documentCache.delete kv.1,
            lastIndexedVersionMap := st.lastIndexedVersionMap.delete kv.1 })
        s).documentCache = q := by
  induction p with
  | nil => intro s q h _; simpa using h
  | cons kv p ih =>
    intro s q h hnodup
    rw [List.foldl_cons]
    refine ih _ q ?_ ?_
    · show (s.documentCache.delete kv.1) = p ++ q
      rw [h]
      rw [JSMap.delete]
      rw [List.cons_append, List.filter_cons_of_neg (by simp)]
      apply List.filter_eq_self.mpr
      intro a ha
      simp only [decide_not, Bool.not_eq_eq_eq_not, Bool.not_true,
        decide_eq_false_iff_not]
      intro hc
      rw [List.cons_append, List.map_cons] at hnodup
      exact (List.nodup_cons.mp hnodup).1 (hc ▸ List.mem_map_of_mem Prod.fst ha)
    · rw [List.cons_append, List.map_cons] at hnodup
      exact (List.nodup_cons.mp hnodup).2

/-- C7 as amended: when `cleanupMemory` runs with more than five cached
documents it removes the entries that were *first inserted* earliest
(iteration-order prefix) until five remain; re-scanning or re-reading a
document does not refresh its position, so this is FIFO on first
insertion, not least-recently-used. -/
theorem c7_eviction_drops_insertion_order_prefix (s : IndexerState)
    (hnodup : s.documentCache.keys.Nodup) (hsize : 5 < s.documentCache.size) :
    (cleanupMemory s).documentCache.entries
      = s.documentCache.entries.drop (s.documentCache.size - 5)
    ∧ (cleanupMemory s).documentCache.size = 5 := by
  have hsplit : s.documentCache.entries
      = s.documentCache.entries.take (s.documentCache.entries.length - 5)
        ++ s.documentCache.entries.drop (s.documentCache.entries.length - 5) :=
    (List.take_append_drop _ _).symm
  have hmain : (cleanupMemory s).documentCache
      = s.documentCache.entries.drop (s.documentCache.entries.length - 5) := by
    rw [cleanupMemory, if_pos hsize]
    refine cleanup_fold_documentCache _ s _ ?_ ?_
    · exact hsplit
    · rw [← hsplit]
      exact hnodup
  constructor
  · exact hmain
  · show ((cleanupMemory s).documentCache).length = 5
    rw [hmain]
    show (List.drop _ _).length = 5
    rw [List.length_drop]
    have : 5 < s.documentCache.entries.length := hsize
    omega

/-- Witness for the amended C7 statement: the six-document state drops
exactly its first inserted entry. -/
theorem c7_eviction_drops_insertion_order_prefix_witness :
    sixDocState.documentCache.keys.Nodup
    ∧ 5 < sixDocState.documentCache.size
    ∧ ((cleanupMemory sixDocState).documentCache.entries
        = sixDocState.documentCache.entries.drop (sixDocState.documentCache.size - 5)
      ∧ (cleanupMemory sixDocState).documentCache.size = 5) :=
  ⟨by decide, by decide,
    c7_eviction_drops_insertion_order_prefix sixDocState (by decide) (by decide)⟩

/-! ## Display-mode toggles (`registerCommands`, lines 859-881)

`xi.toggleViewportMode` flips the viewport flag and, when turning it on,
clears the cursor flag; `xi.toggleCursorMode` is symmetric. -/

structure DisplayModes where
  viewport : Bool
  cursor : Bool
  deriving DecidableEq, Repr

inductive ToggleCmd where
  | toggleViewportMode
  | toggleCursorMode
  deriving DecidableEq, Repr

/-- The two command handlers: `const val = !isXMode(); setXMode(val);
if (val) setOtherMode(false);`. -/
def applyToggle (s : DisplayModes) : ToggleCmd → DisplayModes
  | .toggleViewportMode =>
    if !s.viewport then { viewport := !s.viewport, cursor := false }
    else { s with viewport := !s.viewport }
  | .toggleCursorMode =>
    if !s.cursor then { cursor := !s.cursor, viewport := false }
    else { s with cursor := !s.cursor }

/-- C9: starting from any state in which cursor mode and viewport mode
are not both enabled, no sequence of the two toggle commands can enable
both simultaneously: switching one of them on switches the other off. -/
theorem c9_modes_mutually_exclusive (cmds : List ToggleCmd) :
    ∀ (s : DisplayModes), ¬ (s.cursor = true ∧ s.viewport = true) →
      ¬ ((cmds.foldl applyToggle s).cursor = true
        ∧ (cmds.foldl applyToggle s).viewport = true) := by
  induction cmds with
  | nil => intro s h; exact h
  | cons c rest ih =>
    intro s h
    rw [List.foldl_cons]
    refine ih _ ?_
    match c with
    | .toggleViewportMode =>
      rw [applyToggle]
      split
      · intro hc
        exact absurd hc.1 (by simp)
      · next hv =>
        intro hc
        simp only [Bool.not_eq_true'] at hv
        exact absurd hc.2 (by simp [applyToggle, hv])
    | .toggleCursorMode =>
      rw [applyToggle]
      split
      · intro hc
        exact absurd hc.2 (by simp)
      · next hv =>
        intro hc
        simp only [Bool.not_eq_true'] at hv
        exact absurd hc.1 (by simp [applyToggle, hv])

/-- Witness for C9 on a concrete command sequence: toggling viewport,
then cursor, then viewport again from the all-off state never enables
both. -/
theorem c9_modes_mutually_exclusive_witness :
    ¬ ((⟨false, false⟩ : DisplayModes).cursor = true
      ∧ (⟨false, false⟩ : DisplayModes).viewport = true)
    ∧ ¬ ((([.toggleViewportMode, .toggleCursorMode,
            .toggleViewportMode] : List ToggleCmd).foldl applyToggle
          ⟨false, false⟩).cursor = true
        ∧ (([.toggleViewportMode, .toggleCursorMode,
            .toggleViewportMode] : List ToggleCmd).foldl applyToggle
          ⟨false, false⟩).viewport = true) :=
  ⟨by decide,
    c9_modes_mutually_exclusive
      [.toggleViewportMode, .toggleCursorMode, .toggleViewportMode]
      ⟨false, false⟩ (by decide)⟩

/-! ## Query helpers (`getIndexedDataForDocument`, `getEntryAtCursor`) -/

/-- `getIndexedDataForDocument(document)` (lines 353-359): if the global
store has not been initialised, return `[]`; otherwise
`store.get(docKey) || []`. -/
def getIndexedDataForDocument
    (store : Option (JSMap String (List ProcessedEntry))) (docKey : String) :
    List ProcessedEntry :=
  match store with
  | none => []
  | some m => (m.get docKey).getD []

/-- `getEntryAtCursor(editor, entries)` (lines 93-96):
`entries.find(e => e.line === cursorLine && e.needsIndexing)`. -/
def getEntryAtCursor (cursorLine : Nat) (entries : List ProcessedEntry) :
    Option ProcessedEntry :=
  entries.find? (fun e => e.line = cursorLine ∧ e.needsIndexing = true)

/-- C10: querying indexed data is total — an uninitialised store or an
absent document key yields the empty list, never a failure — and when
one or more flagged occurrences lie on the cursor line, the cursor query
returns the one earliest in document order (the first match, with no
flagged occurrence on that line before it). -/
theorem c10_queries_total_and_first_match :
    (∀ docKey, getIndexedDataForDocument none docKey = [])
    ∧ (∀ (m : JSMap String (List ProcessedEntry)) docKey,
        m.get docKey = none → getIndexedDataForDocument (some m) docKey = [])
    ∧ (∀ (entries : List ProcessedEntry) (cl : Nat) (e : ProcessedEntry),
        e ∈ entries → e.line = cl → e.needsIndexing = true →
        ∃ e₀ pre post, getEntryAtCursor cl entries = some e₀
          ∧ e₀.line = cl ∧ e₀.needsIndexing = true
          ∧ entries = pre ++ e₀ :: post
          ∧ ∀ x ∈ pre, ¬ (x.line = cl ∧ x.needsIndexing = true)) := by
  refine ⟨fun _ => rfl, ?_, ?_⟩
  · intro m docKey h
    rw [getIndexedDataForDocument, h]
    rfl
  · intro entries cl e hmem hline hflag
    induction entries with
    | nil => simp at hmem
    | cons a rest ih =>
      by_cases ha : (a.line = cl ∧ a.needsIndexing = true)
      · refine ⟨a, [], rest, ?_, ha.1, ha.2, by simp, by simp⟩
        rw [getEntryAtCursor, List.find?_cons_of_pos]
        simpa using ha
      · have hmem' : e ∈ rest := by
          rcases List.mem_cons.mp hmem with h | h
          · exact absurd (h ▸ ⟨hline, hflag⟩) ha
          · exact h
        obtain ⟨e₀, pre, post, hfind, hl, hf, hsplit, hpre⟩ := ih hmem'
        refine ⟨e₀, a :: pre, post, ?_, hl, hf, by rw [hsplit]; rfl, ?_⟩
        · rw [getEntryAtCursor, List.find?_cons_of_neg _ (by simpa using ha)]
          exact hfind
        · intro x hx
          rcases List.mem_cons.mp hx with h | h
          · exact h ▸ ha
          · exact hpre x h

/-- Witness for C10: two flagged occurrences share line `4`; the query
returns the first of them. -/
theorem c10_queries_total_and_first_match_witness :
    (⟨"b", 8, 4, some 1, 3, 3, 2, 2, true, "1"⟩ : ProcessedEntry)
        ∈ [(⟨"b", 3, 4, some 1, 2, 2, 1, 2, true, "1"⟩ : ProcessedEntry),
           ⟨"b", 8, 4, some 1, 3, 3, 2, 2, true, "1"⟩]
    ∧ (⟨"b", 8, 4, some 1, 3, 3, 2, 2, true, "1"⟩ : ProcessedEntry).line = 4
    ∧ (⟨"b", 8, 4, some 1, 3, 3, 2, 2, true, "1"⟩ : ProcessedEntry).needsIndexing = true
    ∧ ∃ e₀ pre post,
        getEntryAtCursor 4
          [(⟨"b", 3, 4, some 1, 2, 2, 1, 2, true, "1"⟩ : ProcessedEntry),
           ⟨"b", 8, 4, some 1, 3, 3, 2, 2, true, "1"⟩] = some e₀
        ∧ e₀.line = 4 ∧ e₀.needsIndexing = true
        ∧ [(⟨"b", 3, 4, some 1, 2, 2, 1, 2, true, "1"⟩ : ProcessedEntry),
           ⟨"b", 8, 4, some 1, 3, 3, 2, 2, true, "1"⟩] = pre ++ e₀ :: post
        ∧ ∀ x ∈ pre, ¬ (x.line = 4 ∧ x.needsIndexing = true) :=
  ⟨by decide, by decide, by decide,
    c10_queries_total_and_first_match.2.2
      [⟨"b", 3, 4, some 1, 2, 2, 1, 2, true, "1"⟩,
       ⟨"b", 8, 4, some 1, 3, 3, 2, 2, true, "1"⟩] 4
      ⟨"b", 8, 4, some 1, 3, 3, 2, 2, true, "1"⟩
      (by decide) (by decide) (by decide)⟩

/-! ## Computation lemmas for the chunked scanner -/

theorem scanMatches_nil (i : Nat) : scanMatches [] i = [] := by
  rw [scanMatches]

theorem scanMatches_cons (c : Char) (rest : List Char) (i : Nat) :
    scanMatches (c :: rest) i
      = match tryMatch (c :: rest) with
        | some m =>
          ⟨i, m.1, m.2.1, m.2.2⟩ :: scanMatches ((c :: rest).drop m.1) (i + m.1)
        | none => scanMatches rest (i + 1) := by
  rw [scanMatches]
  cases htm : tryMatch (c :: rest) with
  | none => simp [htm]
  | some m => simp [htm]

theorem tryMatch_none_of_ne (c : Char) (rest : List Char) (h : ¬ c = '<') :
    tryMatch (c :: rest) = none := by
  rw [tryMatch.eq_def]
  split
  · next heq =>
    exfalso
    apply h
    injection heq with h1 _
  · next heq =>
    exfalso
    apply h
    injection heq with h1 _
  · rfl

theorem scanMatches_no_lt (l : List Char) :
    ∀ (i : Nat), '<' ∉ l → scanMatches l i = [] := by
  induction l with
  | nil => intro i _; rw [scanMatches_nil]
  | cons c rest ih =>
    intro i h
    rw [scanMatches_cons]
    have hc : ¬ c = '<' := fun hc => h (hc ▸ List.mem_cons_self _ _)
    rw [tryMatch_none_of_ne c rest hc]
    exact ih (i + 1) (fun hm => h (List.mem_cons_of_mem _ hm))

theorem processChunkRegex_no_lt (chunk : List Char) (startOffset startId : Nat)
    (h : '<' ∉ chunk) : processChunkRegex chunk startOffset startId = ([], startId) := by
  rw [processChunkRegex, scanMatches_no_lt chunk 0 h]
  rfl

theorem scanLargeGo_no_lt_bounded (n : Nat) :
    ∀ (l : List Char), l.length ≤ n → '<' ∉ l →
      ∀ (start gid : Nat), scanLargeGo l start gid = [] := by
  induction n with
  | zero =>
    intro l hl _ start gid
    have : l = [] := List.length_eq_zero.mp (Nat.le_zero.mp hl)
    rw [this, scanLargeGo]
  | succ n ih =>
    intro l hl hlt start gid
    match l with
    | [] => rw [scanLargeGo]
    | c :: rest =>
      rw [scanLargeGo]
      have htake : '<' ∉ (c :: rest).take 10000 :=
        fun hc => hlt (List.mem_of_mem_take hc)
      have hdrop : '<' ∉ (c :: rest).drop 10000 :=
        fun hc => hlt (List.mem_of_mem_drop hc)
      rw [processChunkRegex_no_lt _ _ _ htake]
      rw [ih ((c :: rest).drop 10000) ?_ hdrop]
      · rfl
      · simp only [List.length_drop, List.length_cons] at *
        omega

/-- Splitting off one full chunk. -/
theorem scanLargeGo_append_chunk (a b : List Char) (ha : a.length = 10000)
    (start gid : Nat) :
    scanLargeGo (a ++ b) start gid
      = (processChunkRegex a start gid).1
        ++ scanLargeGo b (start + 10000) (processChunkRegex a start gid).2 := by
  match a, ha with
  | c :: rest, ha =>
    have hcons : (c :: rest) ++ b = c :: (rest ++ b) := rfl
    have htake : (c :: (rest ++ b)).take 10000 = c :: rest := by
      rw [← hcons, ← ha]
      exact List.take_left _ _
    have hdrop : (c :: (rest ++ b)).drop 10000 = b := by
      rw [← hcons, ← ha]
      exact List.drop_left _ _
    rw [hcons, scanLargeGo, htake, hdrop]

/-! ### A concrete large document whose chunk-local line numbers are wrong

`c8Text` is 50001 characters: a newline, 9999 `x`s, then `<a>` at
offset 10000 (the start of the second chunk), then filler.  The chunked
scanner records `line = 0` for the `<a>` occurrence because it counts
newlines only within the occurrence's own chunk, although one newline
precedes offset 10000 in the document. -/

def c8Head : List Char := '\n' :: List.replicate 9999 'x'

def c8Tag : List Char := '<' :: 'a' :: '>' :: List.replicate 9997 'x'

def c8Tail : List Char := List.replicate 30001 'x'

def c8Text : List Char := c8Head ++ (c8Tag ++ c8Tail)

theorem c8Head_length : c8Head.length = 10000 := by
  rw [c8Head, List.length_cons, List.length_replicate]

theorem c8Tag_length : c8Tag.length = 10000 := by
  rw [c8Tag, List.length_cons, List.length_cons, List.length_cons,
    List.length_replicate]

theorem c8Text_length : c8Text.length = 50001 := by
  rw [c8Text, List.length_append, List.length_append, c8Head_length, c8Tag_length,
    c8Tail, List.length_replicate]

theorem not_lt_mem_c8Head : '<' ∉ c8Head := by
  rw [c8Head]
  intro h
  rcases List.mem_cons.mp h with h | h
  · exact absurd h (by decide)
  · exact absurd (List.eq_of_mem_replicate h) (by decide)

theorem not_lt_mem_c8Tail : '<' ∉ c8Tail := by
  rw [c8Tail]
  intro h
  exact absurd (List.eq_of_mem_replicate h) (by decide)

theorem scanMatches_cons_some (c : Char) (rest : List Char) (i : Nat)
    (m : Nat × String × Bool) (h : tryMatch (c :: rest) = some m) :
    scanMatches (c :: rest) i
      = ⟨i, m.1, m.2.1, m.2.2⟩ :: scanMatches ((c :: rest).drop m.1) (i + m.1) := by
  rw [scanMatches_cons, h]

theorem tryMatch_c8Tag :
    tryMatch ('<' :: 'a' :: '>' :: List.replicate 9997 'x') = some (3, "a", false) := by
  decide

theorem scanMatches_c8Tag : scanMatches c8Tag 0 = [⟨0, 3, "a", false⟩] := by
  rw [c8Tag, scanMatches_cons_some _ _ _ _ tryMatch_c8Tag]
  have hdrop : ('<' :: 'a' :: '>' :: List.replicate 9997 'x').drop (3, "a", false).1
      = List.replicate 9997 'x' := rfl
  rw [hdrop]
  rw [scanMatches_no_lt _ _
    (fun h => absurd (List.eq_of_mem_replicate h) (by decide))]

theorem processChunkRegex_c8Tag :
    processChunkRegex c8Tag 10000 0 = ([⟨"a", 10000, 0, none, 1⟩], 1) := by
  rw [processChunkRegex, scanMatches_c8Tag]
  rw [chunkEntries]
  rw [if_neg (by decide)]
  rw [chunkEntries]
  rfl

theorem scanLargeData_c8Text : scanLargeData c8Text = [⟨"a", 10000, 0, none, 1⟩] := by
  rw [scanLargeData, c8Text]
  rw [scanLargeGo_append_chunk c8Head _ c8Head_length]
  rw [processChunkRegex_no_lt _ _ _ not_lt_mem_c8Head]
  rw [scanLargeGo_append_chunk c8Tag _ c8Tag_length]
  rw [processChunkRegex_c8Tag]
  rw [scanLargeGo_no_lt_bounded c8Tail.length c8Tail (Nat.le_refl _) not_lt_mem_c8Tail]
  rfl

theorem countNewlines_c8Text_prefix : countNewlines (c8Text.take 10000) = 1 := by
  have htake : c8Text.take 10000 = c8Head := by
    rw [c8Text, ← c8Head_length]
    exact List.take_left _ _
  rw [htake, c8Head, countNewlines, List.countP_cons]
  rw [List.countP_eq_zero.mpr]
  · rfl
  · intro a ha
    rw [List.eq_of_mem_replicate ha]
    decide

/-! ### Where each chunked occurrence's line count really comes from -/

theorem tryMatchFrom_le_length (pre : Nat) (rest2 : List Char) (n : Nat) (s : String)
    (h : tryMatchFrom pre rest2 = some (n, s)) : n ≤ pre + rest2.length := by
  have hname : (rest2.takeWhile isNameChar).length ≤ rest2.length :=
    (List.takeWhile_sublist _).length_le
  have hdroplen : (rest2.drop (rest2.takeWhile isNameChar).length).length
      = rest2.length - (rest2.takeWhile isNameChar).length := List.length_drop _ _
  rw [tryMatchFrom] at h
  split at h
  · exact absurd h (by simp)
  · obtain ⟨k, hk, hkk⟩ := Option.map_eq_some'.mp h
    have hle := restMatch_le_length _ _ hk
    have hn : pre + (rest2.takeWhile isNameChar).length + k = n := by
      have := congrArg Prod.fst hkk
      simpa using this
    omega

theorem tryMatch_le_length (l : List Char) (m : Nat × String × Bool)
    (h : tryMatch l = some m) : m.1 ≤ l.length := by
  rw [tryMatch.eq_def] at h
  split at h
  · next rest2 =>
    obtain ⟨⟨n, s⟩, hr, hm⟩ := Option.map_eq_some'.mp h
    have := tryMatchFrom_le_length _ _ _ _ hr
    rw [← hm]
    simp only [List.length_cons]
    omega
  · next rest =>
    obtain ⟨⟨n, s⟩, hr, hm⟩ := Option.map_eq_some'.mp h
    have := tryMatchFrom_le_length _ _ _ _ hr
    rw [← hm]
    simp only [List.length_cons]
    omega
  · exact absurd h (by simp)

theorem scanMatches_index_bounds_bounded (n : Nat) :
    ∀ (l : List Char), l.length ≤ n → ∀ (i : Nat),
      ∀ m ∈ scanMatches l i, i ≤ m.index ∧ m.index < i + l.length := by
  induction n with
  | zero =>
    intro l hl i m hm
    have : l = [] := List.length_eq_zero.mp (Nat.le_zero.mp hl)
    rw [this, scanMatches_nil] at hm
    simp at hm
  | succ n ih =>
    intro l hl i m hm
    match l with
    | [] => rw [scanMatches_nil] at hm; simp at hm
    | c :: rest =>
      rw [scanMatches_cons] at hm
      cases htm : tryMatch (c :: rest) with
      | some m0 =>
        rw [htm] at hm
        have hpos := tryMatch_pos _ _ htm
        have hle := tryMatch_le_length _ _ htm
        rcases List.mem_cons.mp hm with hm | hm
        · rw [hm]
          simp only [List.length_cons]
          omega
        · have hrec := ih ((c :: rest).drop m0.1) ?_ (i + m0.1) m hm
          · simp only [List.length_drop, List.length_cons] at hrec ⊢
            omega
          · simp only [List.length_drop, List.length_cons] at *
            omega
      | none =>
        rw [htm] at hm
        have hrec := ih rest ?_ (i + 1) m hm
        · simp only [List.length_cons]
          omega
        · simp only [List.length_cons] at hl
          omega

theorem chunkEntries_mem_spec (chunk : List Char) (startOffset : Nat) :
    ∀ (ms : List ChunkMatch) (id : Nat) (e : RawEntry),
      e ∈ (chunkEntries chunk startOffset ms id).1 →
      ∃ m ∈ ms, m.isClose = false ∧ e.offset = startOffset + m.index
        ∧ e.line = countNewlines (chunk.take m.index) := by
  intro ms
  induction ms with
  | nil => intro id e h; simp [chunkEntries] at h
  | cons m0 ms ih =>
    intro id e h
    rw [chunkEntries] at h
    split at h
    · next hc =>
      obtain ⟨m, hm, hspec⟩ := ih id e h
      exact ⟨m, List.mem_cons_of_mem _ hm, hspec⟩
    · next hc =>
      rcases List.mem_cons.mp h with h | h
      · refine ⟨m0, List.mem_cons_self _ _, ?_, ?_, ?_⟩
        · simpa using hc
        · rw [h]
        · rw [h]
      · obtain ⟨m, hm, hspec⟩ := ih (id + 1) e h
        exact ⟨m, List.mem_cons_of_mem _ hm, hspec⟩

theorem scanLargeGo_line_bounded (n : Nat) :
    ∀ (l : List Char), l.length ≤ n → ∀ (start gid : Nat),
      ∀ e ∈ scanLargeGo l start gid,
      ∃ j ms, ms < 10000 ∧ e.offset = start + 10000 * j + ms
        ∧ e.line = countNewlines ((l.drop (10000 * j)).take ms) := by
  induction n with
  | zero =>
    intro l hl start gid e he
    have : l = [] := List.length_eq_zero.mp (Nat.le_zero.mp hl)
    rw [this, scanLargeGo] at he
    simp at he
  | succ n ih =>
    intro l hl start gid e he
    match l with
    | [] => rw [scanLargeGo] at he; simp at he
    | c :: rest =>
      rw [scanLargeGo] at he
      rcases List.mem_append.mp he with he | he
      · obtain ⟨m, hm, hclose, hoffset, hline⟩ :=
          chunkEntries_mem_spec _ _ _ _ _ he
        have hb := scanMatches_index_bounds_bounded
          ((c :: rest).take 10000).length _ (Nat.le_refl _) 0 m hm
        have hlen : ((c :: rest).take 10000).length ≤ 10000 := by
          rw [List.length_take]
          omega
        refine ⟨0, m.index, by omega, by rw [hoffset]; omega, ?_⟩
        rw [hline]
        have : ((c :: rest).take 10000).take m.index = (c :: rest).take m.index := by
          rw [List.take_take]
          congr 1
          omega
        rw [this]
        have hz : 10000 * 0 = 0 := by ring
        rw [hz, List.drop_zero]
      · have hlen2 : ((c :: rest).drop 10000).length ≤ n := by
          simp only [List.length_drop, List.length_cons] at *
          omega
        obtain ⟨j, ms, hms, hoffset, hline⟩ := ih ((c :: rest).drop 10000) hlen2
          (start + 10000) _ e he
        refine ⟨j + 1, ms, hms, by rw [hoffset]; omega, ?_⟩
        have harith : 10000 + 10000 * j = 10000 * (j + 1) := by ring
        rw [hline, List.drop_drop, harith]

theorem scanRegularGo_line (text : List Char) (tokens : List Token) :
    ∀ (gid : Nat) (stack : List (Nat × String)),
      ∀ e ∈ scanRegularGo text tokens gid stack,
      e.line = countNewlines (text.take e.offset) := by
  induction tokens with
  | nil => intro gid stack e h; simp [scanRegularGo] at h
  | cons tok rest ih =>
    intro gid stack e h
    rw [scanRegularGo] at h
    split at h
    · rcases List.mem_cons.mp h with h | h
      · rw [h]
      · exact ih (gid + 1) _ e h
    · split at h
      · exact ih gid stack.tail e h
      · exact ih gid stack e h

/-! ### C8: line numbers -/

/-- Counterexample to C8: `c8Text` is longer than the large-file
threshold, so a scan takes the chunked path; that path produces exactly
one occurrence, `<a>` at offset 10000 with recorded `line = 0`, although
one newline precedes offset 10000 in the document — the recorded line is
not the newline count of the whole-document prefix. -/
theorem c8_chunk_line_counterexample :
    LARGE_FILE_THRESHOLD < c8Text.length
    ∧ scanPathData c8Text [] = scanLargeData c8Text
    ∧ scanLargeData c8Text = [⟨"a", 10000, 0, none, 1⟩]
    ∧ (⟨"a", 10000, 0, none, 1⟩ : RawEntry).line = 0
    ∧ countNewlines (c8Text.take (⟨"a", 10000, 0, none, 1⟩ : RawEntry).offset) = 1 := by
  have hlen : LARGE_FILE_THRESHOLD < c8Text.length := by
    rw [c8Text_length, LARGE_FILE_THRESHOLD]
    omega
  exact ⟨hlen, by rw [scanPathData, if_pos hlen], scanLargeData_c8Text, rfl,
    countNewlines_c8Text_prefix⟩

/-- C8 as amended: on the regular path the recorded `line` is the number
of newlines in the whole document strictly before the occurrence's
offset, as claimed; on the chunked path it is the number of newlines
between the start of the occurrence's own 10000-character chunk and the
offset — chunk-relative, resetting to zero at every chunk boundary. -/
theorem c8_line_numbers_amended :
    (∀ (text : List Char) (tokens : List Token) (e : RawEntry),
      e ∈ scanRegularData text tokens →
      e.line = countNewlines (text.take e.offset))
    ∧ (∀ (text : List Char) (e : RawEntry), e ∈ scanLargeData text →
      e.line = countNewlines
        ((text.drop (10000 * (e.offset / 10000))).take (e.offset % 10000))) := by
  constructor
  · intro text tokens e he
    exact scanRegularGo_line text tokens 0 [] e he
  · intro text e he
    obtain ⟨j, ms, hms, hoffset, hline⟩ :=
      scanLargeGo_line_bounded text.length text (Nat.le_refl _) 0 0 e he
    rw [Nat.zero_add] at hoffset
    have hj : 10000 * (e.offset / 10000) = 10000 * j := by
      rw [hoffset]
      congr 1
      omega
    have hm : e.offset % 10000 = ms := by
      rw [hoffset]
      omega
    rw [hj, hm]
    exact hline

/-- Witness for the amended C8 statement on the chunked path: the
occurrence of `c8Text` at offset 10000 has `line = 0`, the newline count
of the empty chunk-relative prefix. -/
theorem c8_line_numbers_amended_witness :
    (⟨"a", 10000, 0, none, 1⟩ : RawEntry) ∈ scanLargeData c8Text
    ∧ (⟨"a", 10000, 0, none, 1⟩ : RawEntry).line
        = countNewlines ((c8Text.drop
            (10000 * ((⟨"a", 10000, 0, none, 1⟩ : RawEntry).offset / 10000))).take
          ((⟨"a", 10000, 0, none, 1⟩ : RawEntry).offset % 10000)) :=
  ⟨by rw [scanLargeData_c8Text]; exact List.mem_singleton.mpr rfl,
    c8_line_numbers_amended.2 c8Text ⟨"a", 10000, 0, none, 1⟩
      (by rw [scanLargeData_c8Text]; exact List.mem_singleton.mpr rfl)⟩

/-! ### C6: the large-file threshold and the chunked path -/

/-- C6: an input strictly longer than 50000 characters is scanned by the
chunked path, whose every occurrence has `parentId = null` (both as raw
entries and after grouping); an input of at most 50000 characters is
scanned by the regular nesting-aware tokenizer. -/
theorem c6_threshold_selects_chunked_path (text : List Char) (tokens : List Token) :
    (LARGE_FILE_THRESHOLD < text.length →
      scanPathData text tokens = scanLargeData text
      ∧ (∀ e ∈ scanLargeData text, e.parent = none)
      ∧ (∀ e ∈ processData (scanPathData text tokens), e.parent = none))
    ∧ (text.length ≤ LARGE_FILE_THRESHOLD →
      scanPathData text tokens = scanRegularData text tokens) := by
  constructor
  · intro h
    have hpath : scanPathData text tokens = scanLargeData text := by
      rw [scanPathData, if_pos h]
    refine ⟨hpath, fun e he => scanLargeData_parent_none text e he, ?_⟩
    intro e' he'
    rw [hpath] at he'
    obtain ⟨e₀, he₀, _, hparent, _, _, _⟩ :=
      annotate_mem_spec (buildCounts (scanLargeData text)) _ JSMap.empty 0 e' he'
    rw [hparent]
    exact scanLargeData_parent_none text e₀ he₀
  · intro h
    rw [scanPathData, if_neg (by omega)]

/-- Witness for C6 at `c8Text` (50001 characters): the chunked path is
selected and all its occurrences have `parent = null`. -/
theorem c6_threshold_selects_chunked_path_witness :
    LARGE_FILE_THRESHOLD < c8Text.length
    ∧ (scanPathData c8Text [] = scanLargeData c8Text
      ∧ (∀ e ∈ scanLargeData c8Text, e.parent = none)
      ∧ (∀ e ∈ processData (scanPathData c8Text []), e.parent = none)) :=
  have hlen : LARGE_FILE_THRESHOLD < c8Text.length := by
    rw [c8Text_length, LARGE_FILE_THRESHOLD]
    omega
  ⟨hlen, (c6_threshold_selects_chunked_path c8Text []).1 hlen⟩

end XmlIndex
